import Mathlib

/-!
# AxiomMe mobile runtime — verification development

A shallow embedding of the AxiomMe document/file runtime that backs the C
boundary declared in `crates/axiomme-mobile-ffi/include/axiomme_mobile_ffi.h`.
The boundary header is embedded as data (`headerDecls`); the runtime core
behind it (URI normalization, the versioned document store, directory
listing, the result envelope) is not shipped with the header, so those
components are modelled from the specification, as marked on each
definition.
-/

deriving instance DecidableEq for Except

namespace AxiomMe

/-! ## Embedding of the boundary header declarations -/

/-- C types appearing in the boundary signatures of `axiomme_mobile_ffi.h`. -/
inductive CType where
  | void
  | ffiResult
  | ptrRuntime
  | ptrPtrRuntime
  | constCharPtr
  | cBool
  | ownedBytes
  deriving DecidableEq, Repr

/-- One boundary function declaration: name, return type, parameter types. -/
structure FfiDecl where
  name : String
  ret : CType
  params : List CType
  deriving DecidableEq, Repr

/-- The ten declarations of `axiomme_mobile_ffi.h`, in header order. -/
def headerDecls : List FfiDecl :=
  [ ⟨"axiomme_runtime_new", .ffiResult, [.constCharPtr, .ptrPtrRuntime]⟩,
    ⟨"axiomme_runtime_initialize", .ffiResult, [.ptrRuntime]⟩,
    ⟨"axiomme_runtime_backend_status_json", .ffiResult, [.ptrRuntime]⟩,
    ⟨"axiomme_runtime_mkdir", .ffiResult, [.ptrRuntime, .constCharPtr]⟩,
    ⟨"axiomme_runtime_ls_json", .ffiResult, [.ptrRuntime, .constCharPtr, .cBool]⟩,
    ⟨"axiomme_runtime_load_markdown_json", .ffiResult, [.ptrRuntime, .constCharPtr]⟩,
    ⟨"axiomme_runtime_save_markdown_json", .ffiResult,
      [.ptrRuntime, .constCharPtr, .constCharPtr, .constCharPtr]⟩,
    ⟨"axiomme_runtime_rm", .ffiResult, [.ptrRuntime, .constCharPtr, .cBool]⟩,
    ⟨"axiomme_runtime_free", .void, [.ptrRuntime]⟩,
    ⟨"axiomme_owned_bytes_free", .void, [.ownedBytes]⟩ ]

/-- `AXIOMME_FFI_CODE_OK` from the header enum. -/
def AXIOMME_FFI_CODE_OK : Int := 0

/-- `AXIOMME_FFI_CODE_INVALID_ARGUMENT` from the header enum. -/
def AXIOMME_FFI_CODE_INVALID_ARGUMENT : Int := 1

/-- `AXIOMME_FFI_CODE_RUNTIME_ERROR` from the header enum. -/
def AXIOMME_FFI_CODE_RUNTIME_ERROR : Int := 2

/-! ## ResourceURI — Modelled from the spec

Modelled from the spec: the `ResourceURI` component is not shipped with the
header. The spec requires: parse a caller-supplied string into a canonical
normalized form; reject empty input and traversal escaping the root;
normalization is idempotent. We model a URI as a list of path segments,
split on `'/'`; empty segments and `"."` are dropped, `".."` pops the
previous segment and is rejected when it would escape the root. -/

/-- Split a character list on `'/'` (always returns at least one segment). -/
def splitSlash : List Char → List (List Char)
  | [] => [[]]
  | c :: cs =>
    if c = '/' then [] :: splitSlash cs
    else
      match splitSlash cs with
      | [] => [[c]]
      | seg :: tail => (c :: seg) :: tail

/-- Join segments with `'/'` separators (inverse of `splitSlash` on good segments). -/
def joinSlash : List (List Char) → List Char
  | [] => []
  | [s] => s
  | s :: rest => s ++ '/' :: joinSlash rest

/-- A canonical segment: nonempty, not a dot entry, free of separators. -/
def goodSeg (s : List Char) : Prop :=
  s ≠ [] ∧ s ≠ ['.'] ∧ s ≠ ['.', '.'] ∧ '/' ∉ s

instance (s : List Char) : Decidable (goodSeg s) := by
  unfold goodSeg; infer_instance

/-- One normalization step: drop empty and `"."` segments, pop on `".."`
(failing at the root), keep canonical segments. -/
def stepSeg (acc : Option (List (List Char))) (seg : List Char) :
    Option (List (List Char)) :=
  match acc with
  | none => none
  | some segs =>
    if seg = [] ∨ seg = ['.'] then some segs
    else if seg = ['.', '.'] then
      match segs with
      | [] => none
      | _ => some segs.dropLast
    else some (segs ++ [seg])

/-- Normalize a character-level URI: reject empty input, split on `'/'`,
resolve dot segments, and render the canonical absolute form. -/
def normalizeChars (cs : List Char) : Option (List Char) :=
  if cs = [] then none
  else ((splitSlash cs).foldl stepSeg (some [])).map (fun segs => '/' :: joinSlash segs)

/-- Normalize a URI string to its canonical form, rejecting invalid input. -/
def normalize (s : String) : Option String :=
  (normalizeChars s.toList).map (fun cs => ⟨cs⟩)

/-! ### Normalization lemmas -/

theorem splitSlash_ne_nil (cs : List Char) : splitSlash cs ≠ [] := by
  induction cs with
  | nil => simp [splitSlash]
  | cons c cs ih =>
    simp only [splitSlash]
    split
    · simp
    · cases h : splitSlash cs with
      | nil => simp
      | cons s tail => simp

theorem noSlash_of_mem_splitSlash (cs : List Char) (seg : List Char)
    (h : seg ∈ splitSlash cs) : '/' ∉ seg := by
  induction cs generalizing seg with
  | nil =>
    simp [splitSlash] at h
    simp [h]
  | cons c cs ih =>
    simp only [splitSlash] at h
    by_cases hc : c = '/'
    · simp [hc] at h
      rcases h with h | h
      · simp [h]
      · exact ih seg h
    · simp [hc] at h
      cases hsplit : splitSlash cs with
      | nil => exact absurd hsplit (splitSlash_ne_nil cs)
      | cons s tail =>
        rw [hsplit] at h
        rcases List.mem_cons.mp h with h | h
        · subst h
          intro hmem
          rcases List.mem_cons.mp hmem with h' | h'
          · exact hc h'.symm
          · exact ih s (hsplit ▸ List.mem_cons_self s tail) h'
        · exact ih seg (hsplit ▸ List.mem_cons_of_mem s h)

theorem foldl_stepSeg_none (l : List (List Char)) :
    l.foldl stepSeg none = none := by
  induction l with
  | nil => rfl
  | cons s l ih => simpa [stepSeg] using ih

theorem goodSeg_of_foldl_stepSeg (l : List (List Char)) :
    ∀ (acc segs : List (List Char)), (∀ s ∈ l, '/' ∉ s) →
    (∀ s ∈ acc, goodSeg s) → l.foldl stepSeg (some acc) = some segs →
    ∀ s ∈ segs, goodSeg s := by
  induction l with
  | nil =>
    intro acc segs _ hacc h
    simp only [List.foldl_nil, Option.some.injEq] at h
    exact h ▸ hacc
  | cons seg l ih =>
    intro acc segs hl hacc h
    simp only [List.foldl_cons, stepSeg] at h
    by_cases h1 : seg = [] ∨ seg = ['.']
    · rw [if_pos h1] at h
      exact ih acc segs (fun s hs => hl s (List.mem_cons_of_mem _ hs)) hacc h
    · rw [if_neg h1] at h
      by_cases h2 : seg = ['.', '.']
      · rw [if_pos h2] at h
        cases hacc' : acc with
        | nil =>
          rw [hacc'] at h
          rw [foldl_stepSeg_none] at h
          exact absurd h (by simp)
        | cons a as =>
          rw [hacc'] at h
          refine ih acc.dropLast segs (fun s hs => hl s (List.mem_cons_of_mem _ hs))
            (fun s hs => hacc s (List.dropLast_subset _ hs)) ?_
          rw [hacc']
          exact h
      · rw [if_neg h2] at h
        refine ih (acc ++ [seg]) segs (fun s hs => hl s (List.mem_cons_of_mem _ hs)) ?_ h
        intro s hs
        rcases List.mem_append.mp hs with hs | hs
        · exact hacc s hs
        · have hseg : s = seg := by simpa using hs
          subst hseg
          push_neg at h1
          exact ⟨h1.1, h1.2, h2, hl s (List.mem_cons_self _ _)⟩

theorem splitSlash_noSlash (s : List Char) (h : '/' ∉ s) :
    splitSlash s = [s] := by
  induction s with
  | nil => rfl
  | cons c cs ih =>
    have hc : c ≠ '/' := fun hc => h (hc ▸ List.mem_cons_self c cs)
    have hcs : '/' ∉ cs := fun hm => h (List.mem_cons_of_mem c hm)
    simp only [splitSlash, if_neg hc, ih hcs]

theorem splitSlash_append_slash (s t : List Char) (h : '/' ∉ s) :
    splitSlash (s ++ '/' :: t) = s :: splitSlash t := by
  induction s with
  | nil => simp [splitSlash]
  | cons c cs ih =>
    have hc : c ≠ '/' := fun hc => h (hc ▸ List.mem_cons_self c cs)
    have hcs : '/' ∉ cs := fun hm => h (List.mem_cons_of_mem c hm)
    simp only [List.cons_append, splitSlash, if_neg hc]
    rw [List.append_eq, ih hcs]

theorem splitSlash_joinSlash (segs : List (List Char))
    (h : ∀ s ∈ segs, goodSeg s) (hne : segs ≠ []) :
    splitSlash (joinSlash segs) = segs := by
  induction segs with
  | nil => exact absurd rfl hne
  | cons s rest ih =>
    cases rest with
    | nil =>
      have hs := h s (List.mem_cons_self s [])
      exact splitSlash_noSlash s hs.2.2.2
    | cons s₂ rest₂ =>
      have hs := h s (List.mem_cons_self _ _)
      have hjoin : joinSlash (s :: s₂ :: rest₂) = s ++ '/' :: joinSlash (s₂ :: rest₂) := rfl
      rw [hjoin, splitSlash_append_slash s _ hs.2.2.2,
        ih (fun x hx => h x (List.mem_cons_of_mem s hx)) (by simp)]

theorem foldl_stepSeg_good (segs : List (List Char)) :
    ∀ acc : List (List Char), (∀ s ∈ segs, goodSeg s) →
    segs.foldl stepSeg (some acc) = some (acc ++ segs) := by
  induction segs with
  | nil => simp
  | cons seg rest ih =>
    intro acc h
    have hseg := h seg (List.mem_cons_self _ _)
    have h1 : ¬(seg = [] ∨ seg = ['.']) := by
      push_neg
      exact ⟨hseg.1, hseg.2.1⟩
    simp only [List.foldl_cons, stepSeg, if_neg h1, if_neg hseg.2.2.1]
    rw [ih (acc ++ [seg]) (fun x hx => h x (List.mem_cons_of_mem seg hx))]
    simp

theorem normalizeChars_render (segs : List (List Char))
    (h : ∀ s ∈ segs, goodSeg s) :
    normalizeChars ('/' :: joinSlash segs) = some ('/' :: joinSlash segs) := by
  have hsplit : splitSlash ('/' :: joinSlash segs) = [] :: splitSlash (joinSlash segs) := by
    simp [splitSlash]
  cases hsegs : segs with
  | nil => rfl
  | cons s rest =>
    rw [← hsegs]
    simp only [normalizeChars, if_neg (by simp : ¬('/' :: joinSlash segs = [])), hsplit]
    rw [splitSlash_joinSlash segs h (by simp [hsegs])]
    simp only [List.foldl_cons]
    have hstep : stepSeg (some []) [] = some [] := rfl
    rw [hstep, foldl_stepSeg_good segs [] h]
    simp

/-- Every canonical output of `normalizeChars` is a rendered list of good segments. -/
theorem normalizeChars_shape (cs out : List Char)
    (h : normalizeChars cs = some out) :
    ∃ segs, (∀ s ∈ segs, goodSeg s) ∧ out = '/' :: joinSlash segs := by
  simp only [normalizeChars] at h
  by_cases hcs : cs = []
  · simp [hcs] at h
  · rw [if_neg hcs] at h
    cases hfold : (splitSlash cs).foldl stepSeg (some []) with
    | none => simp [hfold] at h
    | some segs =>
      rw [hfold] at h
      refine ⟨segs, ?_, by simpa using h.symm⟩
      exact goodSeg_of_foldl_stepSeg (splitSlash cs) [] segs
        (fun s hs => noSlash_of_mem_splitSlash cs s hs) (by simp) hfold

theorem normalizeChars_idem (cs out : List Char)
    (h : normalizeChars cs = some out) :
    normalizeChars out = some out := by
  obtain ⟨segs, hgood, rfl⟩ := normalizeChars_shape cs out h
  exact normalizeChars_render segs hgood

/-- C4: URI normalization is idempotent — whenever `normalize u` accepts `u`
and produces the canonical form `v`, normalizing `v` again yields `v`. -/
theorem normalize_idempotent (u v : String) (h : normalize u = some v) :
    normalize v = some v := by
  simp only [normalize] at h
  cases hn : normalizeChars u.toList with
  | none => rw [hn] at h; simp at h
  | some out =>
    rw [hn, Option.map_some'] at h
    obtain rfl : (⟨out⟩ : String) = v := Option.some.injEq _ _ ▸ h
    have htl : (⟨out⟩ : String).toList = out := rfl
    simp only [normalize, htl, normalizeChars_idem u.toList out hn, Option.map_some']

/-- Witness for C4 at a concrete URI. -/
theorem normalize_idempotent_witness :
    normalize "/a//b/./c/../d" = some "/a/b/d" ∧
      normalize "/a/b/d" = some "/a/b/d" :=
  ⟨by decide, normalize_idempotent "/a//b/./c/../d" "/a/b/d" (by decide)⟩

/-! ## Versioned document store — Modelled from the spec

Modelled from the spec: the `Runtime`, `Backend`, `VersionedDocument` and
`DirectoryLister` components are not shipped with the header; only their
boundary declarations are. Per the spec, a `Ready` runtime holds a store of
URI-addressed resources; a resource is either a markdown document (content
plus an opaque fingerprint) or a directory. The backend is modelled as an
association list from normalized paths to entries, whose enumeration order
is arbitrary; fingerprints are modelled as an opaque counter that the store
never reuses (`nextFp`). Every mutating operation returns the next store
state together with an internal result, which the envelope layer later
flattens to the boundary code. Per the spec's §9 open question we choose
the must-exist semantics: a compare-and-swap against a resource with no
stored fingerprint fails with `Conflict`. -/

/-- A normalized, backend-relative path: the segment list of a canonical URI. -/
abbrev Path := List String

/-- A stored resource: a markdown document with its fingerprint, or a directory. -/
inductive Entry where
  | file (content : String) (fp : Nat)
  | dir
  deriving DecidableEq, Repr, Inhabited

/-- Runtime error taxonomy (§7 of the spec). -/
inductive RErr where
  | notFound
  | alreadyExists
  | occupied
  | conflict
  | backendUnavailable
  | ioError
  deriving DecidableEq, Repr

/-- The store behind a Ready runtime: backend entries in enumeration order,
plus the next fresh fingerprint. -/
structure FS where
  entries : List (Path × Entry)
  nextFp : Nat
  deriving DecidableEq, Repr

/-- List-level lookup of the binding of `p` in a backend entry list. -/
def lookupL (l : List (Path × Entry)) (p : Path) : Option Entry :=
  (l.find? (fun e => decide (e.1 = p))).map Prod.snd

/-- The entry currently stored at `p`, if any. -/
def FS.lookup (fs : FS) (p : Path) : Option Entry :=
  lookupL fs.entries p

/-- Replace the binding of `p` in place, or append it if absent. -/
def insertEntry : List (Path × Entry) → Path → Entry → List (Path × Entry)
  | [], p, e => [(p, e)]
  | (q, f) :: rest, p, e =>
    if q = p then (p, e) :: rest else (q, f) :: insertEntry rest p e

/-- The fingerprint currently stored at `p` (none if absent or a directory). -/
def FS.fpAt (fs : FS) (p : Path) : Option Nat :=
  match fs.lookup p with
  | some (.file _ fp) => some fp
  | _ => none

/-- Unconditional write: stores `c` at `p` under a fresh fingerprint. -/
def FS.write (fs : FS) (p : Path) (c : String) : FS × Except RErr Nat :=
  (⟨insertEntry fs.entries p (.file c fs.nextFp), fs.nextFp + 1⟩, .ok fs.nextFp)

/-- `save_markdown`: unconditional create-or-overwrite when no fingerprint is
expected; otherwise a compare-and-swap that fails with `Conflict` unless the
stored fingerprint equals the expected one. -/
def FS.save (fs : FS) (p : Path) (c : String) (exp : Option Nat) :
    FS × Except RErr Nat :=
  match exp with
  | none =>
    match fs.lookup p with
    | some .dir => (fs, .error .occupied)
    | _ => fs.write p c
  | some fp0 =>
    if fs.fpAt p = some fp0 then fs.write p c
    else (fs, .error .conflict)

/-- `load_markdown`: returns the document at `p` with its fingerprint;
`NotFound` if absent, a runtime error if a directory occupies `p`.
Reading never modifies the store. -/
def FS.load (fs : FS) (p : Path) : FS × Except RErr (String × Nat) :=
  match fs.lookup p with
  | some (.file c fp) => (fs, .ok (c, fp))
  | some .dir => (fs, .error .occupied)
  | none => (fs, .error .notFound)

/-- `leadsTo d p`: `d` is an ancestor of `p` or `p` itself. -/
def leadsTo : Path → Path → Bool
  | [], _ => true
  | _, [] => false
  | a :: as, b :: bs => a == b && leadsTo as bs

/-- `strictUnder d p`: `p` is a proper descendant path of `d`. -/
def strictUnder (d p : Path) : Bool :=
  leadsTo d p && decide (d.length < p.length)

/-- Kind of a directory entry at the boundary: file or directory. -/
inductive EKind where
  | file
  | dir
  deriving DecidableEq, Repr

/-- Numeric tag used to order entry kinds. -/
def kindTag : EKind → Nat
  | .file => 0
  | .dir => 1

/-- One row of a directory listing: name, kind, and the normalized URI
relative to the listed directory. -/
structure DirEntry where
  name : String
  kind : EKind
  rel : String
  deriving DecidableEq, Repr

/-- Render a relative path as a normalized relative URI. -/
def renderRel (p : Path) : String := ⟨joinSlash (p.map String.toList)⟩

/-- Listing row for the stored entry `e`, relative to directory `d`. -/
def entryOf (d : Path) (e : Path × Entry) : DirEntry :=
  ⟨e.1.getLastD "",
   match e.2 with
   | .file _ _ => .file
   | .dir => .dir,
   renderRel (e.1.drop d.length)⟩

/-- Listing order: lexicographic by relative URI, tie-broken by name and kind
so that the order is antisymmetric. -/
def entryLE (a b : DirEntry) : Prop :=
  a.rel < b.rel ∨ (a.rel = b.rel ∧
    (a.name < b.name ∨ (a.name = b.name ∧ kindTag a.kind ≤ kindTag b.kind)))

instance : DecidableRel entryLE := fun a b => by
  unfold entryLE; infer_instance

/-- `ls`: fails with `NotFound` unless `d` is an existing directory; otherwise
selects descendants (all of them when recursive, immediate children when not),
renders each relative to `d`, and sorts lexicographically by relative URI.
Listing never modifies the store. -/
def FS.ls (fs : FS) (d : Path) (recursive : Bool) :
    FS × Except RErr (List DirEntry) :=
  if fs.lookup d = some .dir then
    (fs, .ok (List.insertionSort entryLE
      (((fs.entries.filter (fun e => strictUnder d e.1 &&
        (recursive || decide (e.1.length = d.length + 1)))).map (entryOf d)))))
  else (fs, .error .notFound)

/-- All ancestor paths of `p`, from the root `[]` up to `p` itself. -/
def routeOf : Path → List Path
  | [] => [[]]
  | s :: rest => [] :: (routeOf rest).map (s :: ·)

/-- Does a file occupy `p`? -/
def FS.hasFileAt (fs : FS) (p : Path) : Bool :=
  match fs.lookup p with
  | some (.file _ _) => true
  | _ => false

/-- Is the directory path `p` blocked by a file at `p` or at an ancestor? -/
def FS.blockedAt (fs : FS) (p : Path) : Bool :=
  (routeOf p).any fs.hasFileAt

/-- Bind every path in `qs` to a directory entry, in route order. -/
def insertDirs (l : List (Path × Entry)) : List Path → List (Path × Entry)
  | [] => l
  | q :: qs => insertDirs (insertEntry l q .dir) qs

/-- `mkdir`: creates the directory at `p` together with any missing ancestor
directories; fails with a runtime error when a file occupies `p` or an
ancestor of `p`. -/
def FS.mkdir (fs : FS) (p : Path) : FS × Except RErr Unit :=
  if fs.blockedAt p then (fs, .error .occupied)
  else ({ fs with entries := insertDirs fs.entries (routeOf p) }, .ok ())

/-- `rm`: removes the resource at `p`. A non-empty directory is refused unless
`recursive` is set; a recursive remove deletes `p` and every descendant. -/
def FS.rm (fs : FS) (p : Path) (recursive : Bool) : FS × Except RErr Unit :=
  match fs.lookup p with
  | none => (fs, .error .notFound)
  | some (.file _ _) =>
    ({ fs with entries := fs.entries.filter (fun e => !decide (e.1 = p)) }, .ok ())
  | some .dir =>
    if recursive then
      ({ fs with entries := fs.entries.filter (fun e => !leadsTo p e.1) }, .ok ())
    else if fs.entries.any (fun e => strictUnder p e.1) then
      (fs, .error .occupied)
    else
      ({ fs with entries := fs.entries.filter (fun e => !decide (e.1 = p)) }, .ok ())

/-- A path whose every segment is canonical. -/
def goodPath (p : Path) : Prop := ∀ s ∈ p, goodSeg s.toList

instance (p : Path) : Decidable (goodPath p) := by
  unfold goodPath; infer_instance

/-- Fingerprint bound for a stored entry: files carry fingerprints strictly
below the store's next fresh fingerprint. -/
def entryFpBelow (n : Nat) : Entry → Prop
  | .file _ fp => fp < n
  | .dir => True

instance (n : Nat) (e : Entry) : Decidable (entryFpBelow n e) := by
  cases e <;> unfold entryFpBelow <;> infer_instance

/-- Store well-formedness: backend keys are duplicate-free normalized paths,
and every stored fingerprint is older than the next fresh one. -/
def FS.WF (fs : FS) : Prop :=
  (fs.entries.map Prod.fst).Nodup ∧
  (∀ e ∈ fs.entries, goodPath e.1) ∧
  (∀ e ∈ fs.entries, entryFpBelow fs.nextFp e.2)

instance (fs : FS) : Decidable fs.WF := by
  unfold FS.WF; infer_instance

/-! ### Store lemmas -/

theorem find?_insertEntry_self (l : List (Path × Entry)) (p : Path) (e : Entry) :
    (insertEntry l p e).find? (fun x => decide (x.1 = p)) = some (p, e) := by
  induction l with
  | nil => simp [insertEntry]
  | cons qf rest ih =>
    obtain ⟨q, f⟩ := qf
    by_cases h : q = p
    · subst h
      simp [insertEntry, List.find?]
    · simpa [insertEntry, h, List.find?] using ih

theorem find?_insertEntry_ne (l : List (Path × Entry)) (p : Path) (e : Entry)
    (q : Path) (h : q ≠ p) :
    (insertEntry l p e).find? (fun x => decide (x.1 = q)) =
      l.find? (fun x => decide (x.1 = q)) := by
  have hpq : ¬(p = q) := fun hpq => h hpq.symm
  induction l with
  | nil => simp [insertEntry, List.find?, hpq]
  | cons rf rest ih =>
    obtain ⟨r, f⟩ := rf
    by_cases hr : r = p
    · subst hr
      simp [insertEntry, List.find?, hpq]
    · simp only [insertEntry, if_neg hr]
      by_cases hq : r = q
      · simp [List.find?, hq]
      · simp [List.find?, hq, ih]

theorem lookup_write_self (fs : FS) (p : Path) (c : String) :
    (fs.write p c).1.lookup p = some (.file c fs.nextFp) := by
  simp [FS.write, FS.lookup, lookupL, find?_insertEntry_self]

theorem lookup_write_ne (fs : FS) (p q : Path) (c : String) (h : q ≠ p) :
    (fs.write p c).1.lookup q = fs.lookup q := by
  simp [FS.write, FS.lookup, lookupL, find?_insertEntry_ne _ _ _ _ h]

theorem fpAt_write_self (fs : FS) (p : Path) (c : String) :
    (fs.write p c).1.fpAt p = some fs.nextFp := by
  simp [FS.fpAt, lookup_write_self]

theorem lookup_mem (fs : FS) (p : Path) (e : Entry)
    (h : fs.lookup p = some e) : (p, e) ∈ fs.entries := by
  simp only [FS.lookup, lookupL, Option.map_eq_some'] at h
  obtain ⟨⟨q, f⟩, hfind, hsnd⟩ := h
  have hq : q = p := by simpa using List.find?_some hfind
  have := List.mem_of_find?_eq_some hfind
  simp only at hsnd
  rw [← hq, ← hsnd]
  exact this

theorem fpAt_lt_nextFp (fs : FS) (p : Path) (fp0 : Nat) (hwf : fs.WF)
    (h : fs.fpAt p = some fp0) : fp0 < fs.nextFp := by
  unfold FS.fpAt at h
  cases hl : fs.lookup p with
  | none => rw [hl] at h; exact absurd h (by simp)
  | some e =>
    rw [hl] at h
    cases e with
    | dir => exact absurd h (by simp)
    | file c fp =>
      have hfp : fp = fp0 := by simpa using h
      have hmem := hwf.2.2 (p, .file c fp) (lookup_mem fs p _ hl)
      have hlt : fp < fs.nextFp := by simpa [entryFpBelow] using hmem
      exact hfp ▸ hlt

/-! ### C1 — conditional save is a fingerprint compare-and-swap -/

/-- C1: with a non-null expected fingerprint, `save_markdown` succeeds exactly
when the expected fingerprint equals the fingerprint currently stored at the
URI; on a mismatch it fails with `Conflict` and leaves the store unchanged. -/
theorem save_conditional_semantics (fs : FS) (p : Path) (c : String) (fp0 : Nat) :
    ((fs.save p c (some fp0)).2.isOk = true ↔ fs.fpAt p = some fp0) ∧
    (fs.fpAt p ≠ some fp0 →
      fs.save p c (some fp0) = (fs, .error .conflict)) := by
  constructor
  · by_cases h : fs.fpAt p = some fp0
    · simp [FS.save, h, FS.write, Except.isOk, Except.toBool]
    · simp [FS.save, h, Except.isOk, Except.toBool]
  · intro h
    simp [FS.save, h]

/-- Witness for C1: a matching fingerprint succeeds, a stale one conflicts. -/
theorem save_conditional_semantics_witness :
    ((FS.mk [(["a"], .file "x" 3)] 4).save ["a"] "y" (some 7) =
      (FS.mk [(["a"], .file "x" 3)] 4, .error .conflict)) ∧
    ((FS.mk [(["a"], .file "x" 3)] 4).save ["a"] "y" (some 3)).2.isOk = true :=
  ⟨(save_conditional_semantics (FS.mk [(["a"], .file "x" 3)] 4) ["a"] "y" 7).2
      (by decide),
   (save_conditional_semantics (FS.mk [(["a"], .file "x" 3)] 4) ["a"] "y" 3).1.mpr
      (by decide)⟩

/-! ### C2 — linearized compare-and-swap admits a single winner -/

/-- C2: concurrent conditional saves on one URI are linearized; in either
linearization order of two saves that expect the same fingerprint `fp0`
currently stored at the URI, the first succeeds and the second fails with
`Conflict`, so the two calls can never both observe success against the same
prior fingerprint. -/
theorem save_cas_single_winner (fs : FS) (p : Path) (c1 c2 : String) (fp0 : Nat)
    (hwf : fs.WF) (h : fs.fpAt p = some fp0) :
    (fs.save p c1 (some fp0)).2.isOk = true ∧
    ((fs.save p c1 (some fp0)).1.save p c2 (some fp0)).2 = .error .conflict := by
  have hlt : fp0 < fs.nextFp := fpAt_lt_nextFp fs p fp0 hwf h
  constructor
  · simp [FS.save, h, FS.write, Except.isOk, Except.toBool]
  · have h1 : (fs.save p c1 (some fp0)).1 = (fs.write p c1).1 := by
      simp [FS.save, h]
    rw [h1]
    have h2 : (fs.write p c1).1.fpAt p = some fs.nextFp := fpAt_write_self fs p c1
    have hne : ¬((fs.write p c1).1.fpAt p = some fp0) := by
      rw [h2]
      simp only [Option.some.injEq]
      omega
    simp [FS.save, hne]

/-- Witness for C2 on a concrete store. -/
theorem save_cas_single_winner_witness :
    ((FS.mk [(["a"], .file "x" 3)] 4).save ["a"] "y" (some 3)).2.isOk = true ∧
    (((FS.mk [(["a"], .file "x" 3)] 4).save ["a"] "y" (some 3)).1.save
      ["a"] "z" (some 3)).2 = .error .conflict :=
  save_cas_single_winner (FS.mk [(["a"], .file "x" 3)] 4) ["a"] "y" "z" 3
    (by decide) (by decide)

/-! ### C3 — unconditional save then load round-trips -/

/-- C3: after an unconditional `save_markdown` succeeds with fingerprint `f`,
`load_markdown` returns exactly the saved content together with `f`, and a
subsequent conditional save that expects `f` succeeds. -/
theorem save_then_load_roundtrip (fs : FS) (p : Path) (c c' : String) (f : Nat)
    (h : (fs.save p c none).2 = .ok f) :
    ((fs.save p c none).1.load p).2 = .ok (c, f) ∧
    ((fs.save p c none).1.save p c' (some f)).2.isOk = true := by
  have hnotdir : fs.lookup p ≠ some .dir := by
    intro hd
    simp [FS.save, hd] at h
  have hsave : fs.save p c none = fs.write p c := by
    unfold FS.save
    cases hl : fs.lookup p with
    | none => rfl
    | some e =>
      cases e with
      | file c₀ fp₀ => rfl
      | dir => exact absurd hl hnotdir
  have hf : f = fs.nextFp := by
    rw [hsave] at h
    simpa [FS.write] using h.symm
  subst hf
  rw [hsave]
  constructor
  · simp [FS.load, lookup_write_self]
  · simp only [FS.save]
    rw [fpAt_write_self]
    simp [FS.write, Except.isOk, Except.toBool]

/-- Witness for C3 starting from an empty store. -/
theorem save_then_load_roundtrip_witness :
    (((FS.mk [] 0).save ["n"] "# Hi" none).1.load ["n"]).2 = .ok ("# Hi", 0) ∧
    (((FS.mk [] 0).save ["n"] "# Hi" none).1.save ["n"] "# Ho" (some 0)).2.isOk
      = true :=
  save_then_load_roundtrip (FS.mk [] 0) ["n"] "# Hi" "# Ho" 0 (by decide)

/-! ### C5 — fingerprint stability under reads, change under writes -/

/-- C5: reading never modifies the store, so two loads with no intervening
modification return identical documents and fingerprints; and every
successful save to a URI returns a fingerprint different from the one stored
there before the write. -/
theorem fingerprint_read_stable_write_changes (fs : FS) (p : Path) (c : String)
    (exp : Option Nat) (fpOld fpNew : Nat) (hwf : fs.WF) :
    ((fs.load p).1 = fs ∧ ((fs.load p).1.load p).2 = (fs.load p).2) ∧
    (fs.fpAt p = some fpOld → (fs.save p c exp).2 = .ok fpNew →
      fpNew ≠ fpOld) := by
  have hload : (fs.load p).1 = fs := by
    unfold FS.load
    cases fs.lookup p with
    | none => rfl
    | some e => cases e <;> rfl
  refine ⟨⟨hload, by rw [hload]⟩, ?_⟩
  intro hOld hNew
  have hlt : fpOld < fs.nextFp := fpAt_lt_nextFp fs p fpOld hwf hOld
  have hisfile : ∃ c₀, fs.lookup p = some (.file c₀ fpOld) := by
    unfold FS.fpAt at hOld
    cases hl : fs.lookup p with
    | none => rw [hl] at hOld; exact absurd hOld (by simp)
    | some e =>
      rw [hl] at hOld
      cases e with
      | dir => exact absurd hOld (by simp)
      | file c₀ fp =>
        obtain rfl : fp = fpOld := by simpa using hOld
        exact ⟨c₀, rfl⟩
  obtain ⟨c₀, hl⟩ := hisfile
  have hnext : fpNew = fs.nextFp := by
    cases exp with
    | none =>
      rw [show fs.save p c none = fs.write p c by unfold FS.save; rw [hl]] at hNew
      simpa [FS.write] using hNew.symm
    | some fp0 =>
      simp only [FS.save] at hNew
      by_cases hc : fs.fpAt p = some fp0
      · rw [if_pos hc] at hNew
        simpa [FS.write] using hNew.symm
      · rw [if_neg hc] at hNew
        exact absurd hNew (by simp)
  omega

/-- Witness for C5 on a concrete store. -/
theorem fingerprint_read_stable_write_changes_witness :
    (((FS.mk [(["a"], .file "x" 3)] 4).load ["a"]).1 =
        FS.mk [(["a"], .file "x" 3)] 4 ∧
      (((FS.mk [(["a"], .file "x" 3)] 4).load ["a"]).1.load ["a"]).2 =
        ((FS.mk [(["a"], .file "x" 3)] 4).load ["a"]).2) ∧
    ((FS.mk [(["a"], .file "x" 3)] 4).fpAt ["a"] = some 3 →
      ((FS.mk [(["a"], .file "x" 3)] 4).save ["a"] "y" none).2 = .ok 4 →
      (4 : Nat) ≠ 3) :=
  fingerprint_read_stable_write_changes (FS.mk [(["a"], .file "x" 3)] 4)
    ["a"] "y" none 3 4 (by decide)

/-! ### Directory creation lemmas -/

theorem lookupL_insertEntry_self (l : List (Path × Entry)) (p : Path) (e : Entry) :
    lookupL (insertEntry l p e) p = some e := by
  simp [lookupL, find?_insertEntry_self]

theorem lookupL_insertEntry_ne (l : List (Path × Entry)) (p : Path) (e : Entry)
    (q : Path) (h : q ≠ p) :
    lookupL (insertEntry l p e) q = lookupL l q := by
  simp [lookupL, find?_insertEntry_ne _ _ _ _ h]

theorem lookupL_mem (l : List (Path × Entry)) (p : Path) (e : Entry)
    (h : lookupL l p = some e) : (p, e) ∈ l := by
  simp only [lookupL, Option.map_eq_some'] at h
  obtain ⟨⟨q, f⟩, hfind, hsnd⟩ := h
  have hq : q = p := by simpa using List.find?_some hfind
  have hm := List.mem_of_find?_eq_some hfind
  simp only at hsnd
  rw [← hq, ← hsnd]
  exact hm

theorem insertEntry_no_change (l : List (Path × Entry)) (p : Path) (e : Entry)
    (h : lookupL l p = some e) : insertEntry l p e = l := by
  induction l with
  | nil => simp [lookupL] at h
  | cons qf rest ih =>
    obtain ⟨q, f⟩ := qf
    by_cases hq : q = p
    · subst hq
      have : f = e := by simpa [lookupL, List.find?] using h
      simp [insertEntry, this]
    · have h' : lookupL rest p = some e := by
        simpa [lookupL, List.find?, hq] using h
      simp [insertEntry, hq, ih h']

theorem lookupL_insertDirs_not_mem (qs : List Path) :
    ∀ (l : List (Path × Entry)) (q : Path), q ∉ qs →
    lookupL (insertDirs l qs) q = lookupL l q := by
  induction qs with
  | nil => intro l q _; rfl
  | cons q₀ rest ih =>
    intro l q hq
    have hne : q ≠ q₀ := fun h => hq (h ▸ List.mem_cons_self _ _)
    have hnr : q ∉ rest := fun h => hq (List.mem_cons_of_mem _ h)
    simp only [insertDirs]
    rw [ih _ q hnr, lookupL_insertEntry_ne _ _ _ _ hne]

theorem lookupL_insertDirs_mem (qs : List Path) :
    ∀ (l : List (Path × Entry)) (q : Path), q ∈ qs →
    lookupL (insertDirs l qs) q = some .dir := by
  induction qs with
  | nil => intro l q h; simp at h
  | cons q₀ rest ih =>
    intro l q hq
    simp only [insertDirs]
    by_cases hr : q ∈ rest
    · exact ih _ q hr
    · have hq0 : q = q₀ := by
        rcases List.mem_cons.mp hq with h | h
        · exact h
        · exact absurd h hr
      subst hq0
      rw [lookupL_insertDirs_not_mem rest _ q hr, lookupL_insertEntry_self]

theorem insertDirs_no_change (qs : List Path) :
    ∀ l : List (Path × Entry), (∀ q ∈ qs, lookupL l q = some .dir) →
    insertDirs l qs = l := by
  induction qs with
  | nil => intro l _; rfl
  | cons q₀ rest ih =>
    intro l h
    have h0 : insertEntry l q₀ .dir = l :=
      insertEntry_no_change l q₀ .dir (h q₀ (List.mem_cons_self _ _))
    simp only [insertDirs, h0]
    exact ih l (fun q hq => h q (List.mem_cons_of_mem _ hq))

theorem mem_keys_insertEntry (l : List (Path × Entry)) (p : Path) (e : Entry)
    (k : Path) (h : k ∈ (insertEntry l p e).map Prod.fst) :
    k ∈ l.map Prod.fst ∨ k = p := by
  induction l with
  | nil =>
    have h' : k ∈ [(p, e)].map Prod.fst := h
    simp only [List.map_cons, List.map_nil, List.mem_singleton] at h'
    exact Or.inr h'
  | cons qf rest ih =>
    obtain ⟨q, f⟩ := qf
    by_cases hq : q = p
    · subst hq
      have hred : insertEntry ((q, f) :: rest) q e = (q, e) :: rest := by
        simp [insertEntry]
      rw [hred, List.map_cons, List.mem_cons] at h
      cases h with
      | inl h2 => exact Or.inr h2
      | inr h2 => exact Or.inl (List.mem_cons_of_mem q h2)
    · have hred : insertEntry ((q, f) :: rest) p e = (q, f) :: insertEntry rest p e := by
        simp [insertEntry, hq]
      rw [hred, List.map_cons, List.mem_cons] at h
      cases h with
      | inl h2 => exact Or.inl (List.mem_cons.mpr (Or.inl h2))
      | inr h2 =>
        cases ih h2 with
        | inl h3 => exact Or.inl (List.mem_cons_of_mem q h3)
        | inr h3 => exact Or.inr h3

theorem nodupKeys_insertEntry (l : List (Path × Entry)) (p : Path) (e : Entry)
    (h : (l.map Prod.fst).Nodup) : ((insertEntry l p e).map Prod.fst).Nodup := by
  induction l with
  | nil => simp [insertEntry]
  | cons qf rest ih =>
    obtain ⟨q, f⟩ := qf
    simp only [List.map_cons, List.nodup_cons] at h
    by_cases hq : q = p
    · subst hq
      have hred : insertEntry ((q, f) :: rest) q e = (q, e) :: rest := by
        simp [insertEntry]
      rw [hred, List.map_cons, List.nodup_cons]
      exact h
    · have hred : insertEntry ((q, f) :: rest) p e = (q, f) :: insertEntry rest p e := by
        simp [insertEntry, hq]
      rw [hred, List.map_cons, List.nodup_cons]
      refine ⟨?_, ih h.2⟩
      intro hmem
      rcases mem_keys_insertEntry rest p e q hmem with h' | h'
      · exact h.1 h'
      · exact hq h'

theorem nodupKeys_insertDirs (qs : List Path) :
    ∀ l : List (Path × Entry), (l.map Prod.fst).Nodup →
    ((insertDirs l qs).map Prod.fst).Nodup := by
  induction qs with
  | nil => intro l h; exact h
  | cons q rest ih =>
    intro l h
    exact ih _ (nodupKeys_insertEntry l q .dir h)

theorem self_mem_routeOf (p : Path) : p ∈ routeOf p := by
  induction p with
  | nil => simp [routeOf]
  | cons s rest ih =>
    simp only [routeOf, List.mem_cons]
    exact Or.inr (List.mem_map.mpr ⟨rest, ih, rfl⟩)

theorem countP_key_le_one (l : List (Path × Entry)) (p : Path)
    (h : (l.map Prod.fst).Nodup) :
    l.countP (fun e => decide (e.1 = p)) ≤ 1 := by
  induction l with
  | nil => simp
  | cons qf rest ih =>
    obtain ⟨q, f⟩ := qf
    simp only [List.map_cons, List.nodup_cons] at h
    by_cases hq : q = p
    · subst hq
      have hz : rest.countP (fun e => decide (e.1 = q)) = 0 := by
        rw [List.countP_eq_zero]
        intro a ha
        simp only [decide_eq_true_eq]
        intro hkey
        exact h.1 (List.mem_map.mpr ⟨a, ha, hkey⟩)
      simp [List.countP_cons, hz]
    · simpa [List.countP_cons, hq] using ih h.2

/-- The number of directory entries stored at `p`. -/
def countDirsAt (fs : FS) (p : Path) : Nat :=
  fs.entries.countP (fun e => decide (e.1 = p ∧ e.2 = Entry.dir))

/-! ### C7 — mkdir creates ancestors and is idempotent -/

/-- Counterexample to C7 as stated: in a store holding the file `a`, the URI
`a/b` is not occupied by a file (nothing is stored there at all), yet
`mkdir a/b` fails, because an ancestor of the requested directory is a file. -/
theorem mkdir_under_file_counterexample :
    (FS.mk [(["a"], .file "x" 0)] 1).lookup ["a", "b"] = none ∧
    ((FS.mk [(["a"], .file "x" 0)] 1).mkdir ["a", "b"]).2 = .error .occupied := by
  decide

/-- C7 (amended): whenever neither the URI nor any of its ancestors is
occupied by a file, `mkdir` succeeds, creating the requested directory and
every missing ancestor directory (after success, the URI and each of its
ancestors holds a directory); a second `mkdir` of the same URI succeeds
without changing the store, which holds exactly one directory entry at the
URI; and `mkdir` fails with a runtime error when a file occupies the URI
itself. -/
theorem mkdir_semantics (fs : FS) (p : Path) (hwf : fs.WF) :
    (fs.blockedAt p = false →
      (fs.mkdir p).2 = .ok () ∧
      (∀ q ∈ routeOf p, (fs.mkdir p).1.lookup q = some Entry.dir) ∧
      (fs.mkdir p).1.mkdir p = ((fs.mkdir p).1, .ok ()) ∧
      countDirsAt (fs.mkdir p).1 p = 1) ∧
    (fs.hasFileAt p = true → (fs.mkdir p).2 = .error .occupied) := by
  constructor
  · intro hb
    have hmk : fs.mkdir p =
        (⟨insertDirs fs.entries (routeOf p), fs.nextFp⟩, .ok ()) := by
      simp [FS.mkdir, hb]
    have hdirs : ∀ q ∈ routeOf p,
        lookupL (insertDirs fs.entries (routeOf p)) q = some .dir :=
      fun q hq => lookupL_insertDirs_mem (routeOf p) fs.entries q hq
    refine ⟨by rw [hmk], ?_, ?_, ?_⟩
    · intro q hq
      rw [hmk]
      exact hdirs q hq
    · have hb1 : FS.blockedAt ⟨insertDirs fs.entries (routeOf p), fs.nextFp⟩ p
          = false := by
        simp only [FS.blockedAt, List.any_eq_false]
        intro q hq
        simp only [FS.hasFileAt, FS.lookup, hdirs q hq]
        exact Bool.false_ne_true
      have hid : insertDirs (insertDirs fs.entries (routeOf p)) (routeOf p) =
          insertDirs fs.entries (routeOf p) :=
        insertDirs_no_change (routeOf p) _ hdirs
      rw [hmk]
      simp [FS.mkdir, hb1, hid]
    · rw [hmk]
      have hmem : (p, Entry.dir) ∈ insertDirs fs.entries (routeOf p) :=
        lookupL_mem _ p .dir (hdirs p (self_mem_routeOf p))
      have hpos : 0 < countDirsAt ⟨insertDirs fs.entries (routeOf p), fs.nextFp⟩ p := by
        rw [countDirsAt, List.countP_pos_iff]
        exact ⟨(p, .dir), hmem, by simp⟩
      have hle : countDirsAt ⟨insertDirs fs.entries (routeOf p), fs.nextFp⟩ p ≤ 1 := by
        refine le_trans (List.countP_mono_left ?_) (countP_key_le_one _ p
          (nodupKeys_insertDirs (routeOf p) fs.entries hwf.1))
        intro x _ hx
        simp only [decide_eq_true_eq] at hx ⊢
        exact hx.1
      show countDirsAt ⟨insertDirs fs.entries (routeOf p), fs.nextFp⟩ p = 1
      omega
  · intro hf
    have hb : fs.blockedAt p = true := by
      simp only [FS.blockedAt, List.any_eq_true]
      exact ⟨p, self_mem_routeOf p, hf⟩
    simp [FS.mkdir, hb]

/-- Witness for C7 (amended) starting from an empty store: the call succeeds,
the missing ancestor `a` now holds a directory, the second call is a no-op
success, and exactly one directory sits at `a/b`. -/
theorem mkdir_semantics_witness :
    ((FS.mk [] 0).mkdir ["a", "b"]).2 = .ok () ∧
    ((FS.mk [] 0).mkdir ["a", "b"]).1.lookup ["a"] = some Entry.dir ∧
    ((FS.mk [] 0).mkdir ["a", "b"]).1.lookup ["a", "b"] = some Entry.dir ∧
    ((FS.mk [] 0).mkdir ["a", "b"]).1.mkdir ["a", "b"] =
      (((FS.mk [] 0).mkdir ["a", "b"]).1, .ok ()) ∧
    countDirsAt ((FS.mk [] 0).mkdir ["a", "b"]).1 ["a", "b"] = 1 :=
  ⟨((mkdir_semantics (FS.mk [] 0) ["a", "b"] (by decide)).1 (by decide)).1,
   ((mkdir_semantics (FS.mk [] 0) ["a", "b"] (by decide)).1 (by decide)).2.1
      ["a"] (by decide),
   ((mkdir_semantics (FS.mk [] 0) ["a", "b"] (by decide)).1 (by decide)).2.1
      ["a", "b"] (by decide),
   ((mkdir_semantics (FS.mk [] 0) ["a", "b"] (by decide)).1 (by decide)).2.2.1,
   ((mkdir_semantics (FS.mk [] 0) ["a", "b"] (by decide)).1 (by decide)).2.2.2⟩

/-! ### Listing order lemmas -/

theorem kindTag_inj (k k' : EKind) (h : kindTag k = kindTag k') : k = k' := by
  cases k <;> cases k' <;> simp [kindTag] at h ⊢

theorem entryLE_total (a b : DirEntry) : entryLE a b ∨ entryLE b a := by
  unfold entryLE
  rcases lt_trichotomy a.rel b.rel with h | h | h
  · exact Or.inl (Or.inl h)
  · rcases lt_trichotomy a.name b.name with h' | h' | h'
    · exact Or.inl (Or.inr ⟨h, Or.inl h'⟩)
    · rcases Nat.le_total (kindTag a.kind) (kindTag b.kind) with h'' | h''
      · exact Or.inl (Or.inr ⟨h, Or.inr ⟨h', h''⟩⟩)
      · exact Or.inr (Or.inr ⟨h.symm, Or.inr ⟨h'.symm, h''⟩⟩)
    · exact Or.inr (Or.inr ⟨h.symm, Or.inl h'⟩)
  · exact Or.inr (Or.inl h)

theorem entryLE_trans (a b c : DirEntry) (hab : entryLE a b) (hbc : entryLE b c) :
    entryLE a c := by
  unfold entryLE at hab hbc ⊢
  rcases hab with h1 | ⟨e1, h1⟩
  · rcases hbc with h2 | ⟨e2, _⟩
    · exact Or.inl (lt_trans h1 h2)
    · exact Or.inl (e2 ▸ h1)
  · rcases hbc with h2 | ⟨e2, h2⟩
    · exact Or.inl (e1 ▸ h2)
    · refine Or.inr ⟨e1.trans e2, ?_⟩
      rcases h1 with h1 | ⟨f1, h1⟩
      · rcases h2 with h2 | ⟨f2, _⟩
        · exact Or.inl (lt_trans h1 h2)
        · exact Or.inl (f2 ▸ h1)
      · rcases h2 with h2 | ⟨f2, h2⟩
        · exact Or.inl (f1 ▸ h2)
        · exact Or.inr ⟨f1.trans f2, le_trans h1 h2⟩

theorem entryLE_antisymm (a b : DirEntry) (hab : entryLE a b) (hba : entryLE b a) :
    a = b := by
  unfold entryLE at hab hba
  obtain ⟨na, ka, ra⟩ := a
  obtain ⟨nb, kb, rb⟩ := b
  simp only at hab hba
  rcases hab with h1 | ⟨e1, h1⟩
  · rcases hba with h2 | ⟨e2, _⟩
    · exact absurd h2 (lt_asymm h1)
    · exact absurd (e2 ▸ h1) (lt_irrefl _)
  · rcases hba with h2 | ⟨e2, h2⟩
    · exact absurd (e1 ▸ h2) (lt_irrefl _)
    · rcases h1 with h1 | ⟨f1, h1⟩
      · rcases h2 with h2 | ⟨f2, _⟩
        · exact absurd h2 (lt_asymm h1)
        · exact absurd (f2 ▸ h1) (lt_irrefl _)
      · rcases h2 with h2 | ⟨f2, h2⟩
        · exact absurd (f1 ▸ h2) (lt_irrefl _)
        · have hk : ka = kb := kindTag_inj ka kb (le_antisymm h1 h2)
          simp [e1, f1, hk]

instance : IsTotal DirEntry entryLE := ⟨entryLE_total⟩

instance : IsTrans DirEntry entryLE := ⟨entryLE_trans⟩

instance : IsAntisymm DirEntry entryLE := ⟨entryLE_antisymm⟩

theorem entryLE_rel_le (a b : DirEntry) (h : entryLE a b) : a.rel ≤ b.rel := by
  rcases h with h | ⟨h, _⟩
  · exact le_of_lt h
  · exact le_of_eq h

theorem string_toList_inj (s t : String) (h : s.toList = t.toList) : s = t := by
  cases s with
  | mk d1 =>
    cases t with
    | mk d2 => exact congrArg String.mk h

theorem joinSlash_inj (a b : List (List Char))
    (ha : ∀ s ∈ a, goodSeg s) (hb : ∀ s ∈ b, goodSeg s)
    (hna : a ≠ []) (hnb : b ≠ []) (h : joinSlash a = joinSlash b) : a = b := by
  have h1 := splitSlash_joinSlash a ha hna
  have h2 := splitSlash_joinSlash b hb hnb
  rw [← h1, ← h2, h]

theorem renderRel_inj (a b : Path) (ha : goodPath a) (hb : goodPath b)
    (hna : a ≠ []) (hnb : b ≠ []) (h : renderRel a = renderRel b) : a = b := by
  have hj : joinSlash (a.map String.toList) = joinSlash (b.map String.toList) :=
    congrArg String.data h
  have hgood : ∀ (p : Path), goodPath p → ∀ s ∈ p.map String.toList, goodSeg s := by
    intro p hp s hs
    obtain ⟨x, hx, rfl⟩ := List.mem_map.mp hs
    exact hp x hx
  have hmap : a.map String.toList = b.map String.toList :=
    joinSlash_inj _ _ (hgood a ha) (hgood b hb) (by simpa using hna)
      (by simpa using hnb) hj
  exact List.map_injective_iff.mpr
    (fun s t hst => string_toList_inj s t hst) hmap

theorem keysNodup_inj (l : List (Path × Entry)) (h : (l.map Prod.fst).Nodup)
    (x y : Path × Entry) (hx : x ∈ l) (hy : y ∈ l) (hk : x.1 = y.1) : x = y := by
  induction l with
  | nil => simp at hx
  | cons a rest ih =>
    simp only [List.map_cons, List.nodup_cons] at h
    rcases List.mem_cons.mp hx with hx1 | hx1 <;>
      rcases List.mem_cons.mp hy with hy1 | hy1
    · rw [hx1, hy1]
    · subst hx1
      exact absurd (List.mem_map.mpr ⟨y, hy1, hk.symm⟩) h.1
    · subst hy1
      exact absurd (List.mem_map.mpr ⟨x, hx1, hk⟩) h.1
    · exact ih h.2 hx1 hy1

theorem leadsTo_append (d : Path) :
    ∀ p, leadsTo d p = true → d ++ p.drop d.length = p := by
  induction d with
  | nil => intro p _; simp
  | cons a as ih =>
    intro p hp
    cases p with
    | nil => simp [leadsTo] at hp
    | cons b bs =>
      simp only [leadsTo, Bool.and_eq_true, beq_iff_eq] at hp
      obtain ⟨rfl, htail⟩ := hp
      simp only [List.length_cons, List.drop_succ_cons, List.cons_append,
        List.cons.injEq]
      exact ⟨trivial, ih bs htail⟩

theorem strictUnder_spec (d p : Path) (h : strictUnder d p = true) :
    leadsTo d p = true ∧ d.length < p.length := by
  simpa [strictUnder] using h

theorem lookupL_eq_some_of_mem (l : List (Path × Entry))
    (h : (l.map Prod.fst).Nodup) (p : Path) (e : Entry)
    (hmem : (p, e) ∈ l) : lookupL l p = some e := by
  have hsome : (l.find? (fun x => decide (x.1 = p))).isSome = true :=
    List.find?_isSome.mpr ⟨(p, e), hmem, by simp⟩
  cases hfind : l.find? (fun x => decide (x.1 = p)) with
  | none => rw [hfind] at hsome; simp at hsome
  | some x =>
    have hx1 : x.1 = p := by simpa using List.find?_some hfind
    have hxl : x ∈ l := List.mem_of_find?_eq_some hfind
    have hxe : x = (p, e) := keysNodup_inj l h x (p, e) hxl hmem (by simpa using hx1)
    simp [lookupL, hfind, hxe]

theorem lookupL_eq_none_iff (l : List (Path × Entry)) (p : Path) :
    lookupL l p = none ↔ ∀ e, (p, e) ∉ l := by
  constructor
  · intro h e hmem
    simp only [lookupL, Option.map_eq_none', List.find?_eq_none] at h
    exact h (p, e) hmem (by simp)
  · intro h
    simp only [lookupL, Option.map_eq_none', List.find?_eq_none]
    intro x hx hpred
    have hx1 : x.1 = p := by simpa using hpred
    exact h x.2 (by rw [← hx1]; exact hx)

theorem lookupL_perm (l l' : List (Path × Entry)) (hperm : l.Perm l')
    (h : (l.map Prod.fst).Nodup) (p : Path) : lookupL l p = lookupL l' p := by
  have h' : (l'.map Prod.fst).Nodup := ((hperm.map Prod.fst).nodup_iff).mp h
  cases hl : lookupL l p with
  | some e =>
    have hmem : (p, e) ∈ l' := hperm.mem_iff.mp (lookupL_mem l p e hl)
    exact (lookupL_eq_some_of_mem l' h' p e hmem).symm
  | none =>
    symm
    rw [lookupL_eq_none_iff] at hl ⊢
    intro e hmem
    exact hl e (hperm.mem_iff.mpr hmem)

/-! ### C6 — recursive listing is complete, duplicate-free and sorted -/

/-- C6: when `d` is an existing directory, recursive `ls` returns exactly the
proper descendants of `d` stored in the backend (each exactly once, as the
result is a permutation of the duplicate-free descendant set), each entry
carrying a distinct normalized URI relative to `d`, sorted lexicographically
by that relative URI; and the result is unchanged under any permutation of
the backend's enumeration order. -/
theorem ls_recursive_correct (fs : FS) (d : Path) (hwf : fs.WF)
    (hdir : fs.lookup d = some .dir) :
    ∃ l, (fs.ls d true).2 = .ok l ∧
      l.Perm ((fs.entries.filter (fun e => strictUnder d e.1)).map (entryOf d)) ∧
      (l.map DirEntry.rel).Nodup ∧
      l.Sorted (fun a b => a.rel ≤ b.rel) ∧
      (∀ fs' : FS, fs'.entries.Perm fs.entries →
        (fs'.ls d true).2 = (fs.ls d true).2) := by
  have hlseq : ∀ g : FS, g.lookup d = some .dir → (g.ls d true).2 =
      .ok (List.insertionSort entryLE
        ((g.entries.filter (fun e => strictUnder d e.1)).map (entryOf d))) := by
    intro g hg
    simp [FS.ls, hg]
  have hinj : ∀ x ∈ fs.entries.filter (fun e => strictUnder d e.1),
      ∀ y ∈ fs.entries.filter (fun e => strictUnder d e.1),
      (entryOf d x).rel = (entryOf d y).rel → x = y := by
    intro x hx y hy hrel
    have hx' := List.mem_filter.mp hx
    have hy' := List.mem_filter.mp hy
    obtain ⟨hxl, hxlen⟩ := strictUnder_spec d x.1 hx'.2
    obtain ⟨hyl, hylen⟩ := strictUnder_spec d y.1 hy'.2
    have hgx : goodPath (x.1.drop d.length) := by
      intro s hs
      exact hwf.2.1 x hx'.1 s (List.drop_subset _ _ hs)
    have hgy : goodPath (y.1.drop d.length) := by
      intro s hs
      exact hwf.2.1 y hy'.1 s (List.drop_subset _ _ hs)
    have hnx : x.1.drop d.length ≠ [] := by
      intro hcon
      have := congrArg List.length hcon
      simp only [List.length_drop, List.length_nil] at this
      omega
    have hny : y.1.drop d.length ≠ [] := by
      intro hcon
      have := congrArg List.length hcon
      simp only [List.length_drop, List.length_nil] at this
      omega
    have hdrop : x.1.drop d.length = y.1.drop d.length :=
      renderRel_inj _ _ hgx hgy hnx hny hrel
    have hkey : x.1 = y.1 := by
      rw [← leadsTo_append d x.1 hxl, ← leadsTo_append d y.1 hyl, hdrop]
    exact keysNodup_inj fs.entries hwf.1 x y hx'.1 hy'.1 hkey
  have hfkeys : ((fs.entries.filter (fun e => strictUnder d e.1)).map
      Prod.fst).Nodup :=
    ((List.filter_sublist fs.entries).map Prod.fst).nodup hwf.1
  have hfnodup : (fs.entries.filter (fun e => strictUnder d e.1)).Nodup :=
    hfkeys.of_map Prod.fst
  have hrelnodup : (((fs.entries.filter (fun e => strictUnder d e.1)).map
      (entryOf d)).map DirEntry.rel).Nodup := by
    rw [List.map_map]
    exact List.Nodup.map_on (fun x hx y hy hxy => hinj x hx y hy hxy) hfnodup
  refine ⟨List.insertionSort entryLE
      ((fs.entries.filter (fun e => strictUnder d e.1)).map (entryOf d)),
    hlseq fs hdir, List.perm_insertionSort entryLE _, ?_, ?_, ?_⟩
  · have hperm := (List.perm_insertionSort entryLE
      ((fs.entries.filter (fun e => strictUnder d e.1)).map (entryOf d))).map
      DirEntry.rel
    exact hperm.nodup_iff.mpr hrelnodup
  · have hs := List.sorted_insertionSort entryLE
      ((fs.entries.filter (fun e => strictUnder d e.1)).map (entryOf d))
    exact List.Pairwise.imp (fun hab => entryLE_rel_le _ _ hab) hs
  · intro fs' hperm
    have hdir' : fs'.lookup d = some .dir := by
      have := lookupL_perm fs'.entries fs.entries hperm
        (((hperm.map Prod.fst).nodup_iff).mpr hwf.1) d
      rw [FS.lookup, this, ← FS.lookup, hdir]
    rw [hlseq fs' hdir', hlseq fs hdir]
    have hpermf : (fs'.entries.filter (fun e => strictUnder d e.1)).Perm
        (fs.entries.filter (fun e => strictUnder d e.1)) :=
      hperm.filter _
    have hpermm := hpermf.map (entryOf d)
    have hchain : (List.insertionSort entryLE
        ((fs'.entries.filter (fun e => strictUnder d e.1)).map (entryOf d))).Perm
        (List.insertionSort entryLE
        ((fs.entries.filter (fun e => strictUnder d e.1)).map (entryOf d))) :=
      ((List.perm_insertionSort entryLE _).trans hpermm).trans
        (List.perm_insertionSort entryLE _).symm
    have heq := List.eq_of_perm_of_sorted hchain
      (List.sorted_insertionSort entryLE _) (List.sorted_insertionSort entryLE _)
    rw [heq]

/-- Witness for C6 on a concrete store whose enumeration order is scrambled. -/
theorem ls_recursive_correct_witness :
    ∃ l, ((FS.mk [(["d"], .dir), (["d", "z"], .file "z" 0),
        (["d", "a", "b"], .file "ab" 1), (["d", "a"], .dir)] 5).ls ["d"] true).2
        = .ok l ∧
      l.Perm (((FS.mk [(["d"], .dir), (["d", "z"], .file "z" 0),
        (["d", "a", "b"], .file "ab" 1), (["d", "a"], .dir)] 5).entries.filter
          (fun e => strictUnder ["d"] e.1)).map (entryOf ["d"])) ∧
      (l.map DirEntry.rel).Nodup ∧
      l.Sorted (fun a b => a.rel ≤ b.rel) ∧
      (∀ fs' : FS, fs'.entries.Perm (FS.mk [(["d"], .dir),
          (["d", "z"], .file "z" 0), (["d", "a", "b"], .file "ab" 1),
          (["d", "a"], .dir)] 5).entries →
        (fs'.ls ["d"] true).2 = ((FS.mk [(["d"], .dir),
          (["d", "z"], .file "z" 0), (["d", "a", "b"], .file "ab" 1),
          (["d", "a"], .dir)] 5).ls ["d"] true).2) :=
  ls_recursive_correct (FS.mk [(["d"], .dir), (["d", "z"], .file "z" 0),
    (["d", "a", "b"], .file "ab" 1), (["d", "a"], .dir)] 5) ["d"]
    (by decide) (by decide)

/-! ### C8 — rm refuses non-empty directories unless recursive -/

theorem leadsTo_refl (p : Path) : leadsTo p p = true := by
  induction p with
  | nil => rfl
  | cons s rest ih => simp [leadsTo, ih]

/-- C8: on a non-empty directory, a non-recursive `rm` fails with a runtime
error and returns the store unchanged; a recursive `rm` succeeds, removes the
directory and every descendant, and a subsequent `ls` of the directory fails
with `NotFound`. -/
theorem rm_dir_semantics (fs : FS) (d : Path)
    (hdir : fs.lookup d = some .dir)
    (hne : fs.entries.any (fun e => strictUnder d e.1) = true) :
    fs.rm d false = (fs, .error .occupied) ∧
    (fs.rm d true).2 = .ok () ∧
    (∀ q, leadsTo d q = true → (fs.rm d true).1.lookup q = none) ∧
    (∀ r, ((fs.rm d true).1.ls d r).2 = .error .notFound) := by
  have hrm : fs.rm d true =
      (⟨fs.entries.filter (fun e => !leadsTo d e.1), fs.nextFp⟩, .ok ()) := by
    simp [FS.rm, hdir]
  have hgone : ∀ q, leadsTo d q = true → (fs.rm d true).1.lookup q = none := by
    intro q hq
    rw [hrm]
    simp only [FS.lookup, lookupL]
    rw [Option.map_eq_none', List.find?_eq_none]
    intro x hx
    simp only [decide_eq_true_eq]
    intro hkey
    have hflt := (List.mem_filter.mp hx).2
    rw [hkey] at hflt
    simp [hq] at hflt
  refine ⟨?_, ?_, hgone, ?_⟩
  · simp [FS.rm, hdir, hne]
  · simp [FS.rm, hdir]
  · intro r
    have hnone := hgone d (leadsTo_refl d)
    simp [FS.ls, hnone]

/-- Witness for C8 on a concrete non-empty directory. -/
theorem rm_dir_semantics_witness :
    (FS.mk [(["d"], .dir), (["d", "x"], .file "f" 0)] 1).rm ["d"] false =
      (FS.mk [(["d"], .dir), (["d", "x"], .file "f" 0)] 1, .error .occupied) ∧
    ((FS.mk [(["d"], .dir), (["d", "x"], .file "f" 0)] 1).rm ["d"] true).2 =
      .ok () ∧
    (((FS.mk [(["d"], .dir), (["d", "x"], .file "f" 0)] 1).rm ["d"] true).1.ls
      ["d"] true).2 = .error .notFound :=
  ⟨(rm_dir_semantics (FS.mk [(["d"], .dir), (["d", "x"], .file "f" 0)] 1) ["d"]
      (by decide) (by decide)).1,
   (rm_dir_semantics (FS.mk [(["d"], .dir), (["d", "x"], .file "f" 0)] 1) ["d"]
      (by decide) (by decide)).2.1,
   (rm_dir_semantics (FS.mk [(["d"], .dir), (["d", "x"], .file "f" 0)] 1) ["d"]
      (by decide) (by decide)).2.2.2 true⟩

/-! ## ResultEnvelope — Modelled from the spec

Modelled from the spec: the `ResultEnvelope` component that flattens the
internal tagged outcome to the boundary `(code, owned payload)` pair is not
shipped with the header. Per §4.5/§6, an internal outcome is either a
success payload (the serialized value, empty for operations with no return
value) or a structured fault, and the envelope maps it to one of the three
header result codes together with a serialized `kind`/`message` error object
on every failure. The owned byte buffer is modelled as its UTF-8 string
contents. -/

/-- An internal boundary fault: a pre-I/O argument rejection or a runtime
error from the store. -/
inductive FfiErr where
  | invalidArgument (message : String)
  | runtime (kind : RErr) (message : String)
  deriving DecidableEq, Repr

/-- Kind discriminator string for a runtime error. -/
def rerrName : RErr → String
  | .notFound => "NotFound"
  | .alreadyExists => "AlreadyExists"
  | .occupied => "Occupied"
  | .conflict => "Conflict"
  | .backendUnavailable => "BackendUnavailable"
  | .ioError => "Io"

/-- The boundary result: an `AxiommeFfiCode` plus the owned payload buffer. -/
structure BoundaryResult where
  code : Int
  payload : String
  deriving DecidableEq, Repr

/-- Serialized structured error object with a kind discriminator and message. -/
def errorJson (kind msg : String) : String :=
  "\x7b\"kind\":\"" ++ kind ++ "\",\"message\":\"" ++ msg ++ "\"\x7d"

/-- Flatten an internal outcome to the boundary result pair. -/
def envelope : Except FfiErr String → BoundaryResult
  | .ok payload => ⟨AXIOMME_FFI_CODE_OK, payload⟩
  | .error (.invalidArgument m) =>
    ⟨AXIOMME_FFI_CODE_INVALID_ARGUMENT, errorJson "InvalidArgument" m⟩
  | .error (.runtime k m) =>
    ⟨AXIOMME_FFI_CODE_RUNTIME_ERROR, errorJson (rerrName k) m⟩

/-! ### C9 — the boundary result protocol -/

/-- C9: every enveloped outcome carries a result code that is exactly one of
0 (success), 1 (invalid argument) or 2 (runtime error); the payload is empty
for a success with no return value, and every error outcome carries the
serialized structured error object with its kind discriminator and message. -/
theorem envelope_protocol (r : Except FfiErr String) :
    ((envelope r).code = AXIOMME_FFI_CODE_OK ∨
     (envelope r).code = AXIOMME_FFI_CODE_INVALID_ARGUMENT ∨
     (envelope r).code = AXIOMME_FFI_CODE_RUNTIME_ERROR) ∧
    ((envelope r).code = AXIOMME_FFI_CODE_OK ↔ ∃ v, r = .ok v) ∧
    (r = .ok "" → (envelope r).payload = "") ∧
    (∀ e, r = .error e → ∃ kind msg, (envelope r).payload = errorJson kind msg) := by
  cases r with
  | ok v =>
    refine ⟨Or.inl rfl, by simp [envelope], ?_, ?_⟩
    · intro h
      rw [h]
      rfl
    · intro e h
      exact absurd h (by simp)
  | error e =>
    cases e with
    | invalidArgument m =>
      refine ⟨Or.inr (Or.inl rfl), ?_, by simp, ?_⟩
      · simp [envelope, AXIOMME_FFI_CODE_OK, AXIOMME_FFI_CODE_INVALID_ARGUMENT]
      · intro e' _
        exact ⟨"InvalidArgument", m, rfl⟩
    | runtime k m =>
      refine ⟨Or.inr (Or.inr rfl), ?_, by simp, ?_⟩
      · simp [envelope, AXIOMME_FFI_CODE_OK, AXIOMME_FFI_CODE_RUNTIME_ERROR]
      · intro e' _
        exact ⟨rerrName k, m, rfl⟩

/-- Witness for C9: a conflict outcome flattens to code 2 with the
structured error payload, and an argument-less success to code 0 with an
empty payload. -/
theorem envelope_protocol_witness :
    ((envelope (.error (.runtime .conflict "stale fingerprint"))).code =
        AXIOMME_FFI_CODE_OK ∨
      (envelope (.error (.runtime .conflict "stale fingerprint"))).code =
        AXIOMME_FFI_CODE_INVALID_ARGUMENT ∨
      (envelope (.error (.runtime .conflict "stale fingerprint"))).code =
        AXIOMME_FFI_CODE_RUNTIME_ERROR) ∧
    (∃ kind msg, (envelope (.error (.runtime .conflict "stale fingerprint"))).payload
        = errorJson kind msg) ∧
    (envelope (.ok "")).payload = "" :=
  ⟨(envelope_protocol (.error (.runtime .conflict "stale fingerprint"))).1,
   (envelope_protocol (.error (.runtime .conflict "stale fingerprint"))).2.2.2
      (.runtime .conflict "stale fingerprint") rfl,
   (envelope_protocol (.ok "")).2.2.1 rfl⟩

/-! ## Release operations — Modelled from the spec

Modelled from the spec: the bodies of `axiomme_runtime_free` and
`axiomme_owned_bytes_free` are not shipped with the header. Per §4.1/§6 each
release operation is total — it accepts a null handle (resp. an empty
buffer) as a no-op and returns nothing — so each is modelled as a total
function on the set of live resources, with no error component in its
codomain. -/

/-- Release a runtime handle: a null handle is a no-op, a live handle is
retired from the live set. Total — never fails. -/
def runtimeFree (live : List Nat) (handle : Option Nat) : List Nat :=
  match handle with
  | none => live
  | some h => live.erase h

/-- Release an owned buffer: an empty buffer is a no-op, otherwise the buffer
is retired from the live set. Total — never fails. -/
def ownedBytesFree (live : List String) (buf : String) : List String :=
  if buf = "" then live else live.erase buf

/-! ### C10 — release is infallible at the boundary -/

/-- C10: in the boundary header, exactly the two release operations return
`void`, so neither can return a result code or an error payload; and the
modelled release operations are total functions for which a null handle or an
empty buffer is a no-op — release cannot fail. -/
theorem release_is_infallible :
    (∀ d ∈ headerDecls,
      ((d.name = "axiomme_runtime_free" ∨ d.name = "axiomme_owned_bytes_free") ↔
        d.ret = CType.void)) ∧
    (∀ d ∈ headerDecls, d.ret = CType.void → d.ret ≠ CType.ffiResult) ∧
    (∀ live : List Nat, runtimeFree live none = live) ∧
    (∀ live : List String, ownedBytesFree live "" = live) := by
  refine ⟨by decide, by decide, fun live => rfl, fun live => rfl⟩

/-- Witness for C10 at the two concrete release declarations. -/
theorem release_is_infallible_witness :
    (FfiDecl.mk "axiomme_runtime_free" .void [.ptrRuntime]).ret = CType.void ∧
    (FfiDecl.mk "axiomme_owned_bytes_free" .void [.ownedBytes]).ret =
      CType.void ∧
    runtimeFree [7] none = [7] ∧ ownedBytesFree ["b"] "" = ["b"] :=
  ⟨(release_is_infallible.1 (FfiDecl.mk "axiomme_runtime_free" .void
      [.ptrRuntime]) (by decide)).mp (Or.inl rfl),
   (release_is_infallible.1 (FfiDecl.mk "axiomme_owned_bytes_free" .void
      [.ownedBytes]) (by decide)).mp (Or.inr rfl),
   release_is_infallible.2.2.1 [7],
   release_is_infallible.2.2.2 ["b"]⟩

end AxiomMe
